import Mathlib

/-!
Shallow embedding of `src/main.rs` of the `splitter` repository.

The program offers two implementations of a threshold-gated parallel map over
a vector: `splitter_with_rayon` (rayon `par_chunks` + `flat_map` + `collect`)
and `splitter_no_deps` (one `thread::spawn` per `chunks(TRESHOLD)` chunk, a
single-use channel handing each chunk to its thread, and a join loop that
appends each thread's output vector in spawn order).  Vectors are modelled as
`List`, the transform `fn(T) -> R` as a Lean function, and a panicking
transform as a function into `Option` (`none` = panic).  Concurrency is
modelled by its observable outcome: every worker's result is a pure function
of its chunk, and results are reassembled in chunk order, exactly as the join
loop and rayon's order-preserving `collect` do.
-/

set_option maxRecDepth 100000

namespace Splitter

universe u v

variable {T : Type u} {R : Type v} {α : Type u} {β : Type v}

/-- Source: `const TRESHOLD: usize = 100;` (src/main.rs line 25). -/
def TRESHOLD : Nat := 100

/-- Rust `slice::chunks(n)` (and rayon `par_chunks(n)`): consecutive
non-overlapping chunks of `n` elements each; if `n` does not divide the
length, the last chunk is shorter.  The recursion is driven by a fuel
argument so that it is structural; each emitted chunk consumes at least one
element, so `fuel = l.length` always suffices (see `chunks`). -/
def chunksFuel (n : Nat) : Nat → List α → List (List α)
  | _, [] => []
  | 0, _ :: _ => []
  | fuel + 1, x :: xs => (x :: xs.take (n - 1)) :: chunksFuel n fuel (xs.drop (n - 1))

/-- `input.chunks(n)` / `input.par_chunks(n)` on a vector modelled as a list. -/
def chunks (n : Nat) (l : List α) : List (List α) := chunksFuel n l.length l

/-- The chunking performed by `par_chunks(TRESHOLD)` in `splitter_with_rayon`'s
concurrent branch (src/main.rs line 36).  Per rayon's documentation,
`par_chunks(n)` yields non-overlapping chunks of exactly `n` elements at a
time, only the last chunk being shorter when `n` does not divide the length;
the work-stealing heuristic decides which thread processes which chunk, not
the chunk sizes. -/
def rayon_chunks (input : List T) : List (List T) := chunks TRESHOLD input

/-- `splitter_with_rayon` (src/main.rs lines 27-40): below the threshold, map
sequentially in the caller's context; otherwise `par_chunks(TRESHOLD)`, map
each chunk inside the `flat_map` closure, and `collect`, which rayon
reassembles in chunk order. -/
def splitter_with_rayon (input : List T) (f : T → R) : List R :=
  if input.length < TRESHOLD then
    input.map f
  else
    (List.map (fun chunk => chunk.map f) (rayon_chunks input)).flatten

/-- `splitter_no_deps` (src/main.rs lines 42-74): below the threshold, map
sequentially in the caller's context; otherwise spawn one thread per
`chunks(TRESHOLD)` chunk (each thread receives its chunk over a single-use
channel and maps `f` over it), then join the handles in spawn order,
appending each thread's vector to `res`. -/
def splitter_no_deps (input : List T) (f : T → R) : List R :=
  if input.length < TRESHOLD then
    input.map f
  else
    let handles := List.map (fun chunk => chunk.map f) (chunks TRESHOLD input)
    handles.foldl (fun res v => res ++ v) []

/-- Which branch of the `if input.len() < TRESHOLD` conditional a call takes. -/
inductive Path
  | seq
  | conc
deriving DecidableEq

/-- Branch taken by `splitter_with_rayon` (src/main.rs line 32). -/
def splitter_with_rayon_path (input : List T) : Path :=
  if input.length < TRESHOLD then Path.seq else Path.conc

/-- Branch taken by `splitter_no_deps` (src/main.rs line 47). -/
def splitter_no_deps_path (input : List T) : Path :=
  if input.length < TRESHOLD then Path.seq else Path.conc

/-- Number of `thread::spawn` calls `splitter_no_deps` performs: none on the
sequential branch, one per chunk in the `for chunk in input.chunks(TRESHOLD)`
loop on the concurrent branch (src/main.rs line 55). -/
def splitter_no_deps_workers (input : List T) : Nat :=
  if input.length < TRESHOLD then 0 else (chunks TRESHOLD input).length

/-- Rust `iter().map(|v| f(v.clone())).collect::<Vec<R>>()` under a transform
that may panic, a panic modelled as `none`: elements are transformed in
order and the first panic aborts the whole collection. -/
def mapPanic (f : T → Option R) : List T → Option (List R)
  | [] => some []
  | x :: xs =>
    match f x with
    | none => none
    | some y => Option.map (fun ys => y :: ys) (mapPanic f xs)

/-- Collection of all per-chunk worker results: `none` as soon as any chunk's
worker panicked, otherwise the per-chunk outputs in chunk order. -/
def collectChunks (f : T → Option R) : List (List T) → Option (List (List R))
  | [] => some []
  | c :: cs =>
    match mapPanic f c, collectChunks f cs with
    | some v, some vs => some (v :: vs)
    | _, _ => none

/-- Panic-aware model of `splitter_with_rayon`: a panic inside the `flat_map`
closure is re-raised by rayon's `collect`, so any failing element fails the
whole call and no vector is produced. -/
def splitter_with_rayon_f (input : List T) (f : T → Option R) : Option (List R) :=
  if input.length < TRESHOLD then
    mapPanic f input
  else
    Option.map List.flatten (collectChunks f (rayon_chunks input))

/-- One iteration of the join loop of `splitter_no_deps` under the panic
model: `res.append(&mut h.join().unwrap())`, where a panicked worker
(`none`) makes `unwrap` re-raise and kills the whole call. -/
def joinStep (res : Option (List R)) (h : Option (List R)) : Option (List R) :=
  match res, h with
  | some r, some v => some (r ++ v)
  | _, _ => none

/-- Panic-aware model of `splitter_no_deps`: each spawned thread yields
`mapPanic f chunk`; the join loop's `h.join().unwrap()` re-raises the first
worker panic and the partially built `res` is discarded, so any failed worker
fails the whole call and no vector is produced. -/
def splitter_no_deps_f (input : List T) (f : T → Option R) : Option (List R) :=
  if input.length < TRESHOLD then
    mapPanic f input
  else
    let handles := List.map (fun chunk => mapPanic f chunk) (chunks TRESHOLD input)
    handles.foldl joinStep (some [])

/-! ### Chunking lemmas -/

theorem chunksFuel_nil (n fuel : Nat) : chunksFuel n fuel ([] : List α) = [] := by
  cases fuel <;> rfl

theorem chunksFuel_flatten (n : Nat) :
    ∀ (fuel : Nat) (l : List α), l.length ≤ fuel → (chunksFuel n fuel l).flatten = l := by
  intro fuel
  induction fuel with
  | zero =>
    intro l h
    cases l with
    | nil => rfl
    | cons x xs => simp at h
  | succ fuel ih =>
    intro l h
    cases l with
    | nil => rfl
    | cons x xs =>
      have hdrop : (xs.drop (n - 1)).length ≤ fuel := by
        simp only [List.length_drop]
        simp only [List.length_cons] at h
        omega
      show ((x :: xs.take (n - 1)) :: chunksFuel n fuel (xs.drop (n - 1))).flatten = x :: xs
      rw [List.flatten_cons, ih _ hdrop]
      simp [List.take_append_drop]

/-- `chunks` partitions the list: concatenating the chunks in order gives the
list back (no element lost, duplicated, or reordered). -/
theorem chunks_flatten (n : Nat) (l : List α) : (chunks n l).flatten = l :=
  chunksFuel_flatten n l.length l (Nat.le_refl _)

theorem chunksFuel_length (n : Nat) (hn : 0 < n) :
    ∀ (fuel : Nat) (l : List α), l.length ≤ fuel →
      (chunksFuel n fuel l).length = (l.length + n - 1) / n := by
  intro fuel
  induction fuel with
  | zero =>
    intro l h
    cases l with
    | nil => simp [chunksFuel, Nat.div_eq_of_lt (show n - 1 < n by omega)]
    | cons x xs => simp at h
  | succ fuel ih =>
    intro l h
    cases l with
    | nil => simp [chunksFuel, Nat.div_eq_of_lt (show n - 1 < n by omega)]
    | cons x xs =>
      have hdrop : (xs.drop (n - 1)).length ≤ fuel := by
        simp only [List.length_drop]
        simp only [List.length_cons] at h
        omega
      show ((x :: xs.take (n - 1)) :: chunksFuel n fuel (xs.drop (n - 1))).length
          = ((x :: xs).length + n - 1) / n
      rw [List.length_cons, ih _ hdrop, List.length_drop, List.length_cons]
      have h1 : xs.length + 1 + n - 1 = xs.length + n := by omega
      rw [h1, Nat.add_div_right _ hn]
      have h2 : (xs.length - (n - 1) + n - 1) / n = xs.length / n := by
        rcases le_or_lt (n - 1) xs.length with hle | hlt
        · have h3 : xs.length - (n - 1) + n - 1 = xs.length := by omega
          rw [h3]
        · have h3 : xs.length - (n - 1) = 0 := by omega
          rw [h3, Nat.div_eq_of_lt (show 0 + n - 1 < n by omega),
            Nat.div_eq_of_lt (show xs.length < n by omega)]
      rw [h2]

/-- The number of chunks is the ceiling of `length / n`. -/
theorem chunks_length (n : Nat) (hn : 0 < n) (l : List α) :
    (chunks n l).length = (l.length + n - 1) / n :=
  chunksFuel_length n hn l.length l (Nat.le_refl _)

theorem chunksFuel_size_le (n : Nat) (hn : 0 < n) :
    ∀ (fuel : Nat) (l : List α), ∀ c ∈ chunksFuel n fuel l, c.length ≤ n := by
  intro fuel
  induction fuel with
  | zero =>
    intro l c hc
    cases l with
    | nil => simp [chunksFuel] at hc
    | cons x xs => simp [chunksFuel] at hc
  | succ fuel ih =>
    intro l c hc
    cases l with
    | nil => simp [chunksFuel] at hc
    | cons x xs =>
      have hc' : c ∈ (x :: xs.take (n - 1)) :: chunksFuel n fuel (xs.drop (n - 1)) := hc
      rcases List.mem_cons.mp hc' with rfl | hmem
      · have hmin := Nat.min_le_left (n - 1) xs.length
        simp only [List.length_cons, List.length_take]
        omega
      · exact ih _ _ hmem

/-- Every chunk has at most `n` elements. -/
theorem chunks_size_le (n : Nat) (hn : 0 < n) (l : List α) :
    ∀ c ∈ chunks n l, c.length ≤ n :=
  chunksFuel_size_le n hn l.length l

theorem chunksFuel_nonlast_size (n : Nat) (hn : 0 < n) :
    ∀ (fuel : Nat) (l : List α) (i : Nat) (hi : i < (chunksFuel n fuel l).length),
      i + 1 < (chunksFuel n fuel l).length →
      ((chunksFuel n fuel l).get ⟨i, hi⟩).length = n := by
  intro fuel
  induction fuel with
  | zero =>
    intro l i hi _
    cases l with
    | nil => simp [chunksFuel] at hi
    | cons x xs => simp [chunksFuel] at hi
  | succ fuel ih =>
    intro l i hi hlast
    cases l with
    | nil => simp [chunksFuel] at hi
    | cons x xs =>
      cases i with
      | zero =>
        have hrest : chunksFuel n fuel (xs.drop (n - 1)) ≠ [] := by
          intro hnil
          have : (chunksFuel n (fuel + 1) (x :: xs)).length = 1 := by
            show ((x :: xs.take (n - 1)) :: chunksFuel n fuel (xs.drop (n - 1))).length = 1
            rw [hnil]
            rfl
          omega
        have hxs : ¬ xs.length ≤ n - 1 := by
          intro hle
          exact hrest (by rw [List.drop_eq_nil_of_le hle, chunksFuel_nil])
        show (x :: xs.take (n - 1)).length = n
        simp only [List.length_cons, List.length_take]
        omega
      | succ j =>
        have hi' : j < (chunksFuel n fuel (xs.drop (n - 1))).length := by
          have : (chunksFuel n (fuel + 1) (x :: xs)).length
              = (chunksFuel n fuel (xs.drop (n - 1))).length + 1 := rfl
          omega
        have hlast' : j + 1 < (chunksFuel n fuel (xs.drop (n - 1))).length := by
          have : (chunksFuel n (fuel + 1) (x :: xs)).length
              = (chunksFuel n fuel (xs.drop (n - 1))).length + 1 := rfl
          omega
        exact ih (xs.drop (n - 1)) j hi' hlast'

/-- Every chunk except possibly the last has exactly `n` elements. -/
theorem chunks_nonlast_size (n : Nat) (hn : 0 < n) (l : List α)
    (i : Nat) (hi : i < (chunks n l).length) (hlast : i + 1 < (chunks n l).length) :
    ((chunks n l).get ⟨i, hi⟩).length = n :=
  chunksFuel_nonlast_size n hn l.length l i hi hlast

/-- A nonempty list no longer than `n` forms a single chunk. -/
theorem chunks_eq_singleton (n : Nat) (l : List α) (h0 : l ≠ []) (hle : l.length ≤ n) :
    chunks n l = [l] := by
  cases l with
  | nil => exact absurd rfl h0
  | cons x xs =>
    show (x :: xs.take (n - 1)) :: chunksFuel n xs.length (xs.drop (n - 1)) = [x :: xs]
    have hxs : xs.length ≤ n - 1 := by
      simp only [List.length_cons] at hle
      omega
    rw [List.take_of_length_le hxs, List.drop_eq_nil_of_le hxs, chunksFuel_nil]

/-! ### Both splitters compute the element-wise map -/

theorem foldl_append_eq_flatten (L : List (List α)) :
    ∀ acc : List α, L.foldl (fun res v => res ++ v) acc = acc ++ L.flatten := by
  induction L with
  | nil => intro acc; simp
  | cons c cs ih => intro acc; simp [ih, List.append_assoc]

theorem splitter_with_rayon_eq_map (input : List T) (f : T → R) :
    splitter_with_rayon input f = input.map f := by
  unfold splitter_with_rayon
  split
  · rfl
  · show (List.map (List.map f) (chunks TRESHOLD input)).flatten = input.map f
    rw [← List.map_flatten, chunks_flatten]

theorem splitter_no_deps_eq_map (input : List T) (f : T → R) :
    splitter_no_deps input f = input.map f := by
  unfold splitter_no_deps
  split
  · rfl
  · show (List.map (fun chunk => chunk.map f) (chunks TRESHOLD input)).foldl
        (fun res v => res ++ v) [] = input.map f
    rw [foldl_append_eq_flatten, List.nil_append]
    show (List.map (List.map f) (chunks TRESHOLD input)).flatten = input.map f
    rw [← List.map_flatten, chunks_flatten]

/-! ### Panic-model lemmas -/

theorem mapPanic_eq_none_iff (f : T → Option R) (l : List T) :
    mapPanic f l = none ↔ ∃ x, x ∈ l ∧ f x = none := by
  induction l with
  | nil => simp [mapPanic]
  | cons x xs ih =>
    cases hfx : f x with
    | none =>
      simp only [mapPanic, hfx]
      exact ⟨fun _ => ⟨x, List.mem_cons_self x xs, hfx⟩, fun _ => trivial⟩
    | some y =>
      simp only [mapPanic, hfx, Option.map_eq_none', ih]
      constructor
      · rintro ⟨z, hz, hfz⟩
        exact ⟨z, List.mem_cons_of_mem x hz, hfz⟩
      · rintro ⟨z, hz, hfz⟩
        rcases List.mem_cons.mp hz with rfl | hz'
        · rw [hfx] at hfz
          exact absurd hfz (by simp)
        · exact ⟨z, hz', hfz⟩

theorem mapPanic_eq_some (f : T → Option R) :
    ∀ (l : List T) (res : List R), mapPanic f l = some res →
      res.length = l.length ∧ ∀ i : Nat, res[i]? = (l[i]?).bind f := by
  intro l
  induction l with
  | nil =>
    intro res h
    simp only [mapPanic, Option.some.injEq] at h
    subst h
    simp
  | cons x xs ih =>
    intro res h
    cases hfx : f x with
    | none => simp [mapPanic, hfx] at h
    | some y =>
      simp only [mapPanic, hfx] at h
      cases hrec : mapPanic f xs with
      | none => rw [hrec] at h; simp at h
      | some rs =>
        rw [hrec] at h
        simp only [Option.map_some', Option.some.injEq] at h
        subst h
        obtain ⟨hlen, hidx⟩ := ih rs hrec
        refine ⟨by simp [hlen], ?_⟩
        intro i
        cases i with
        | zero => simp [hfx]
        | succ j => simpa using hidx j

theorem mapPanic_append (f : T → Option R) (l₁ l₂ : List T) :
    mapPanic f (l₁ ++ l₂)
      = (mapPanic f l₁).bind (fun v => Option.map (fun w => v ++ w) (mapPanic f l₂)) := by
  induction l₁ with
  | nil =>
    cases h₂ : mapPanic f l₂ <;> simp [mapPanic, h₂]
  | cons x xs ih =>
    cases hfx : f x with
    | none => simp [mapPanic, hfx]
    | some y =>
      cases hxs : mapPanic f xs with
      | none =>
        have hrec : mapPanic f (xs ++ l₂) = none := by
          rw [ih, hxs]
          rfl
        simp [mapPanic, hfx, hxs, hrec]
      | some vs =>
        cases h₂ : mapPanic f l₂ with
        | none =>
          have hrec : mapPanic f (xs ++ l₂) = none := by
            rw [ih, hxs, h₂]
            rfl
          simp [mapPanic, hfx, hxs, h₂, hrec]
        | some ws =>
          have hrec : mapPanic f (xs ++ l₂) = some (vs ++ ws) := by
            rw [ih, hxs, h₂]
            rfl
          simp [mapPanic, hfx, hxs, h₂, hrec]

theorem collectChunks_flatten (f : T → Option R) :
    ∀ L : List (List T),
      Option.map List.flatten (collectChunks f L) = mapPanic f L.flatten := by
  intro L
  induction L with
  | nil => simp [collectChunks, mapPanic]
  | cons c cs ih =>
    rw [List.flatten_cons, mapPanic_append]
    cases hc : mapPanic f c with
    | none => simp [collectChunks, hc]
    | some v =>
      cases hcs : collectChunks f cs with
      | none =>
        have hmp : mapPanic f cs.flatten = none := by
          rw [← ih, hcs]
          rfl
        simp [collectChunks, hc, hcs, hmp]
      | some vs =>
        have hmp : mapPanic f cs.flatten = some vs.flatten := by
          rw [← ih, hcs]
          rfl
        simp [collectChunks, hc, hcs, hmp]

theorem foldl_joinStep_none (hs : List (Option (List R))) :
    hs.foldl joinStep none = none := by
  induction hs with
  | nil => rfl
  | cons h hs ih =>
    rw [List.foldl_cons, show (joinStep none h : Option (List R)) = none from by
      cases h <;> rfl]
    exact ih

theorem foldl_joinStep_eq (f : T → Option R) :
    ∀ (L : List (List T)) (acc : List R),
      (List.map (fun c => mapPanic f c) L).foldl joinStep (some acc)
        = Option.map (fun w => acc ++ w) (mapPanic f L.flatten) := by
  intro L
  induction L with
  | nil => intro acc; simp [mapPanic]
  | cons c cs ih =>
    intro acc
    rw [List.map_cons, List.foldl_cons, List.flatten_cons, mapPanic_append]
    cases hc : mapPanic f c with
    | none =>
      rw [show (joinStep (some acc) none : Option (List R)) = none from rfl,
        foldl_joinStep_none]
      rfl
    | some v =>
      rw [show (joinStep (some acc) (some v) : Option (List R)) = some (acc ++ v) from rfl,
        ih (acc ++ v)]
      cases hm : mapPanic f cs.flatten <;> simp [List.append_assoc]

theorem splitter_with_rayon_f_eq (input : List T) (f : T → Option R) :
    splitter_with_rayon_f input f = mapPanic f input := by
  unfold splitter_with_rayon_f
  split
  · rfl
  · show Option.map List.flatten (collectChunks f (chunks TRESHOLD input)) = mapPanic f input
    rw [collectChunks_flatten, chunks_flatten]

theorem splitter_no_deps_f_eq (input : List T) (f : T → Option R) :
    splitter_no_deps_f input f = mapPanic f input := by
  unfold splitter_no_deps_f
  split
  · rfl
  · show (List.map (fun c => mapPanic f c) (chunks TRESHOLD input)).foldl
        joinStep (some []) = mapPanic f input
    rw [foldl_joinStep_eq, chunks_flatten]
    cases hm : mapPanic f input <;> simp

/-! ### Claim theorems -/

/-- C1: for every input vector and every transform `f`, both
`splitter_with_rayon` and `splitter_no_deps` return a result with
`result[i] = f (input[i])` at every valid index `i`, whichever of the
sequential (`len < 100`) or concurrent (`len >= 100`) branch was taken. -/
theorem splitter_result_index (input : List T) (f : T → R) (i : Nat)
    (h : i < input.length) :
    (splitter_with_rayon input f)[i]? = some (f (input.get ⟨i, h⟩))
  ∧ (splitter_no_deps input f)[i]? = some (f (input.get ⟨i, h⟩)) := by
  rw [splitter_with_rayon_eq_map, splitter_no_deps_eq_map]
  constructor <;> simp [List.getElem?_eq_getElem h]

theorem splitter_result_index_witness :
    (splitter_with_rayon [10, 20, 30] (fun x => x + 1))[1]? = some 21
  ∧ (splitter_no_deps [10, 20, 30] (fun x => x + 1))[1]? = some 21 :=
  splitter_result_index [10, 20, 30] (fun x => x + 1) 1 (by decide)

/-- C2: for every input vector and transform, `splitter_with_rayon` and
`splitter_no_deps` produce identical output sequences; moreover each equals
`input.map f`, which is exactly what the sequential branch computes, so the
concurrent branch produces the same output sequence as the sequential one. -/
theorem splitter_impls_equivalent (input : List T) (f : T → R) :
    splitter_with_rayon input f = splitter_no_deps input f
  ∧ splitter_with_rayon input f = input.map f
  ∧ splitter_no_deps input f = input.map f := by
  refine ⟨?_, splitter_with_rayon_eq_map input f, splitter_no_deps_eq_map input f⟩
  rw [splitter_with_rayon_eq_map, splitter_no_deps_eq_map]

/-- C3: with threshold 100, both implementations route an input of length
strictly below the threshold to the sequential branch — `splitter_no_deps`
then spawning no worker threads — and an input of length at least the
threshold to the concurrent branch. -/
theorem splitter_threshold_routing (input : List T) :
    (input.length < TRESHOLD →
      splitter_with_rayon_path input = Path.seq
      ∧ splitter_no_deps_path input = Path.seq
      ∧ splitter_no_deps_workers input = 0)
  ∧ (TRESHOLD ≤ input.length →
      splitter_with_rayon_path input = Path.conc
      ∧ splitter_no_deps_path input = Path.conc) := by
  constructor
  · intro h
    simp [splitter_with_rayon_path, splitter_no_deps_path, splitter_no_deps_workers, h]
  · intro h
    simp [splitter_with_rayon_path, splitter_no_deps_path, Nat.not_lt.mpr h]

theorem splitter_threshold_routing_witness :
    (splitter_with_rayon_path (List.range 99) = Path.seq
     ∧ splitter_no_deps_workers (List.range 99) = 0)
  ∧ splitter_no_deps_path (List.range 100) = Path.conc :=
  ⟨⟨((splitter_threshold_routing (List.range 99)).1 (by decide)).1,
    ((splitter_threshold_routing (List.range 99)).1 (by decide)).2.2⟩,
   ((splitter_threshold_routing (List.range 100)).2 (by decide)).2⟩

/-- C4: the concurrent-path chunking partitions the input into consecutive
chunks — no gaps, no overlap, original order — every chunk except possibly
the last having exactly the threshold size and every chunk at most it;
concatenating the per-chunk results in chunk order reproduces the
element-wise map of the input; and with threshold 100 an input of length 250
forms exactly the 3 chunks of sizes 100, 100, 50. -/
theorem splitter_chunking_partition (l : List α) (f : α → β) :
    (chunks TRESHOLD l).flatten = l
  ∧ (∀ c ∈ chunks TRESHOLD l, c.length ≤ TRESHOLD)
  ∧ (∀ i (hi : i < (chunks TRESHOLD l).length), i + 1 < (chunks TRESHOLD l).length →
      ((chunks TRESHOLD l).get ⟨i, hi⟩).length = TRESHOLD)
  ∧ (List.map (fun c => c.map f) (chunks TRESHOLD l)).flatten = l.map f
  ∧ (chunks TRESHOLD (List.range 250)).map List.length = [100, 100, 50] := by
  refine ⟨chunks_flatten _ _, chunks_size_le _ (by decide) _,
    fun i hi hl => chunks_nonlast_size _ (by decide) _ i hi hl, ?_, by decide⟩
  show (List.map (List.map f) (chunks TRESHOLD l)).flatten = l.map f
  rw [← List.map_flatten, chunks_flatten]

theorem splitter_chunking_partition_witness :
    (chunks TRESHOLD (List.range 250)).flatten = List.range 250
  ∧ ((chunks TRESHOLD (List.range 250)).get ⟨0, by decide⟩).length = TRESHOLD
  ∧ (chunks TRESHOLD (List.range 250)).map List.length = [100, 100, 50] :=
  ⟨(splitter_chunking_partition (List.range 250) (fun x : Nat => x)).1,
   (splitter_chunking_partition (List.range 250) (fun x : Nat => x)).2.2.1 0
     (by decide) (by decide),
   (splitter_chunking_partition (List.range 250) (fun x : Nat => x)).2.2.2.2⟩

/-- C5: for every input vector and transform, the results of both
`splitter_with_rayon` and `splitter_no_deps` have the same length as the
input. -/
theorem splitter_length_invariant (input : List T) (f : T → R) :
    (splitter_with_rayon input f).length = input.length
  ∧ (splitter_no_deps input f).length = input.length := by
  rw [splitter_with_rayon_eq_map, splitter_no_deps_eq_map]
  simp

/-- C6: under the panic model, if the transform fails on any element of the
input then both implementations fail as a whole, returning no sequence; and
whenever either implementation does return a sequence, it is the complete,
correctly ordered sequence of per-element results — no partial success. -/
theorem splitter_failure_atomic (input : List T) (f : T → Option R) :
    ((∃ x, x ∈ input ∧ f x = none) →
      splitter_with_rayon_f input f = none ∧ splitter_no_deps_f input f = none)
  ∧ (∀ res : List R,
      splitter_with_rayon_f input f = some res ∨ splitter_no_deps_f input f = some res →
      res.length = input.length ∧ ∀ i : Nat, res[i]? = (input[i]?).bind f) := by
  constructor
  · intro hex
    have hn : mapPanic f input = none := (mapPanic_eq_none_iff f input).mpr hex
    rw [splitter_with_rayon_f_eq, splitter_no_deps_f_eq, hn]
    exact ⟨rfl, rfl⟩
  · intro res hres
    rcases hres with h | h
    · rw [splitter_with_rayon_f_eq] at h
      exact mapPanic_eq_some f input res h
    · rw [splitter_no_deps_f_eq] at h
      exact mapPanic_eq_some f input res h

theorem splitter_failure_atomic_witness :
    (splitter_with_rayon_f [1, 2, 3] (fun x => if x = 2 then none else some x) = none
     ∧ splitter_no_deps_f [1, 2, 3] (fun x => if x = 2 then none else some x) = none)
  ∧ (([6, 7] : List Nat).length = ([5, 6] : List Nat).length
     ∧ ∀ i : Nat, ([6, 7] : List Nat)[i]?
        = (([5, 6] : List Nat)[i]?).bind (fun x => some (x + 1))) :=
  ⟨(splitter_failure_atomic [1, 2, 3] (fun x => if x = 2 then none else some x)).1
     ⟨2, by decide, by decide⟩,
   (splitter_failure_atomic [5, 6] (fun x => some (x + 1))).2 [6, 7]
     (Or.inr (by decide))⟩

/-- C7 (amended): in `splitter_with_rayon`, the concurrent path chunks the
input with `par_chunks(TRESHOLD)` into chunks of exactly the threshold size,
only the last chunk being shorter when the threshold does not divide the
length — the very same chunking `splitter_no_deps` uses; rayon's
work-stealing heuristic decides only which thread processes which chunk, not
the chunk sizes. -/
theorem rayon_chunks_threshold_exact (input : List T) :
    rayon_chunks input = chunks TRESHOLD input
  ∧ (∀ i (hi : i < (rayon_chunks input).length), i + 1 < (rayon_chunks input).length →
      ((rayon_chunks input).get ⟨i, hi⟩).length = TRESHOLD)
  ∧ (∀ c ∈ rayon_chunks input, c.length ≤ TRESHOLD) := by
  exact ⟨rfl, fun i hi hl => chunks_nonlast_size _ (by decide) _ i hi hl,
    chunks_size_le _ (by decide) _⟩

theorem rayon_chunks_threshold_exact_witness :
    rayon_chunks (List.range 200) = chunks TRESHOLD (List.range 200)
  ∧ ((rayon_chunks (List.range 200)).get ⟨0, by decide⟩).length = TRESHOLD :=
  ⟨(rayon_chunks_threshold_exact (List.range 200)).1,
   (rayon_chunks_threshold_exact (List.range 200)).2.1 0 (by decide) (by decide)⟩

/-- C7 counterexample: a length-200 input takes the concurrent path, yet its
`par_chunks(TRESHOLD)` chunking has every chunk of exactly the threshold
size — the chunk sizes are not decided by any library heuristic diverging
from the stated threshold. -/
theorem rayon_chunks_heuristic_cex :
    TRESHOLD ≤ (List.range 200).length
  ∧ splitter_with_rayon_path (List.range 200) = Path.conc
  ∧ (rayon_chunks (List.range 200)).map List.length = [TRESHOLD, TRESHOLD]
  ∧ rayon_chunks (List.range 200) = chunks TRESHOLD (List.range 200) :=
  ⟨by decide, by decide, by decide, rfl⟩

/-- C8: on the concurrent path of `splitter_no_deps` the number of spawned
worker threads equals the number of chunks, which is the ceiling of
`input.length / TRESHOLD`, computed as `(input.length + (TRESHOLD - 1)) /
TRESHOLD` in natural-number arithmetic. -/
theorem splitter_worker_count (input : List T) (h : TRESHOLD ≤ input.length) :
    splitter_no_deps_workers input = (input.length + TRESHOLD - 1) / TRESHOLD
  ∧ splitter_no_deps_workers input = (chunks TRESHOLD input).length := by
  have hnlt : ¬ input.length < TRESHOLD := Nat.not_lt.mpr h
  have hw : splitter_no_deps_workers input = (chunks TRESHOLD input).length := by
    simp [splitter_no_deps_workers, hnlt]
  refine ⟨?_, hw⟩
  rw [hw, chunks_length TRESHOLD (by decide) input]

theorem splitter_worker_count_witness :
    TRESHOLD ≤ (List.range 250).length
  ∧ splitter_no_deps_workers (List.range 250)
      = ((List.range 250).length + TRESHOLD - 1) / TRESHOLD
  ∧ splitter_no_deps_workers (List.range 250) = 3 :=
  ⟨by decide,
   (splitter_worker_count (List.range 250) (by decide)).1,
   by decide⟩

/-- C9: on the empty input, both implementations return the empty vector via
the sequential branch, `splitter_no_deps` spawning no worker threads. -/
theorem splitter_empty_input (f : T → R) :
    splitter_with_rayon ([] : List T) f = []
  ∧ splitter_no_deps ([] : List T) f = []
  ∧ splitter_with_rayon_path ([] : List T) = Path.seq
  ∧ splitter_no_deps_path ([] : List T) = Path.seq
  ∧ splitter_no_deps_workers ([] : List T) = 0 :=
  ⟨rfl, rfl, rfl, rfl, rfl⟩

/-- C10: an input of length exactly the threshold takes the concurrent branch
in both implementations, forms exactly one chunk equal to the whole input —
so `splitter_no_deps` spawns a single worker — and both outputs still equal
the element-wise map of the input. -/
theorem splitter_at_threshold (input : List T) (f : T → R)
    (h : input.length = TRESHOLD) :
    splitter_with_rayon_path input = Path.conc
  ∧ splitter_no_deps_path input = Path.conc
  ∧ chunks TRESHOLD input = [input]
  ∧ splitter_no_deps_workers input = 1
  ∧ splitter_with_rayon input f = input.map f
  ∧ splitter_no_deps input f = input.map f := by
  have hne : input ≠ [] := by
    intro hnil
    subst hnil
    simp [TRESHOLD] at h
  have hnlt : ¬ input.length < TRESHOLD := by
    intro hlt
    rw [h] at hlt
    exact Nat.lt_irrefl _ hlt
  have hone : chunks TRESHOLD input = [input] :=
    chunks_eq_singleton TRESHOLD input hne (le_of_eq h)
  refine ⟨?_, ?_, hone, ?_, splitter_with_rayon_eq_map input f,
    splitter_no_deps_eq_map input f⟩
  · simp [splitter_with_rayon_path, hnlt]
  · simp [splitter_no_deps_path, hnlt]
  · simp [splitter_no_deps_workers, hnlt, hone]

theorem splitter_at_threshold_witness :
    splitter_no_deps_path (List.range 100) = Path.conc
  ∧ chunks TRESHOLD (List.range 100) = [List.range 100]
  ∧ splitter_no_deps_workers (List.range 100) = 1 :=
  ⟨(splitter_at_threshold (List.range 100) (fun x => x + 1) (by decide)).2.1,
   (splitter_at_threshold (List.range 100) (fun x => x + 1) (by decide)).2.2.1,
   (splitter_at_threshold (List.range 100) (fun x => x + 1) (by decide)).2.2.2.1⟩

end Splitter
